import Mathlib

/-!
Shallow embedding of the PII-redaction core of `piazza-summarizer`
(`src/piazza_summarizer/processors/{text_cleaner,name_detector,pii_remover}.py`).

Texts are modelled as `List Char`, `Optional[str]` as `Option (List Char)`.
The spaCy recognizer is an explicit oracle parameter
`nlp : List Char → Except String (List (List Char × List Char))`
returning `(entity text, entity label)` pairs or failing, following the
injected-interface reading of the design notes.  Python `set`s are modelled
as duplicate-free lists; only membership is relied upon.
-/

namespace PiazzaSummarizer

/-- Python whitespace characters, as used by `str.strip()` / `str.split()`
(ASCII fragment of Python's definition; all texts in this development are
ASCII apart from decoded entities). -/
def isPySpace (c : Char) : Bool :=
  c = ' ' || c = '\t' || c = '\n' || c = '\r' || c = '\x0b' || c = '\x0c'

/-- Python `str.strip()`: drop leading and trailing whitespace. -/
def pyStrip (l : List Char) : List Char :=
  ((l.dropWhile isPySpace).reverse.dropWhile isPySpace).reverse

/-- Helper for `pySplit`: accumulate the current word (reversed). -/
def pySplitAux : List Char → List Char → List (List Char)
  | [], acc => if acc = [] then [] else [acc.reverse]
  | c :: rest, acc =>
    if isPySpace c then
      if acc = [] then pySplitAux rest [] else acc.reverse :: pySplitAux rest []
    else pySplitAux rest (c :: acc)

/-- Python `str.split()` with no argument: split on whitespace runs,
discarding empty pieces. -/
def pySplit (l : List Char) : List (List Char) := pySplitAux l []

/-- Python `str.lower()` (ASCII model, matching `Char.toLower`). -/
def lowerL (l : List Char) : List Char := l.map Char.toLower

/-! ### `text_cleaner.clean_html_entities` : model of `html.unescape`

The stdlib call is modelled by the algorithm of CPython's
`html.unescape`/`_replace_charref`, restricted to the named entities the
module's docstring enumerates (`&amp; &lt; &gt; &quot;` plus XML `&apos;`,
each also in its legacy no-semicolon form where HTML5 defines one) and to
decimal/hex numeric references; the windows-1252 remapping of the numeric
range 0x80–0x9F and the deletion of invalid control codepoints are out of
the modelled domain. -/

/-- Named-entity table (subset of the HTML5 table; keys are tried
longest-first exactly as CPython does). -/
def namedTable : List (List Char × List Char) :=
  [("amp;".data, "&".data), ("amp".data, "&".data),
   ("lt;".data, "<".data), ("lt".data, "<".data),
   ("gt;".data, ">".data), ("gt".data, ">".data),
   ("quot;".data, "\"".data), ("quot".data, "\"".data),
   ("apos;".data, "'".data)]

/-- CPython's longest-match lookup for a named reference: try the whole
captured text, then ever shorter heads down to length 2.  Returns the
decoded value together with the uncaptured tail of `s`. -/
def findNamedAux (s : List Char) : Nat → Option (List Char × List Char)
  | 0 => none
  | 1 => none
  | n + 2 =>
    match List.lookup (s.take (n + 2)) namedTable with
    | some v => some (v, s.drop (n + 2))
    | none => findNamedAux s (n + 1)

def findNamed (s : List Char) : Option (List Char × List Char) :=
  findNamedAux s s.length

/-- Characters allowed inside a named reference by the charref regex
(`[^\t\n\x0c <&#;]`). -/
def namedChar (c : Char) : Bool :=
  !(c = '\t' || c = '\n' || c = '\x0c' || c = ' ' || c = '<' || c = '&' || c = ';' || c = '#')

/-- Decode one numeric character reference the way `_replace_charref` does
(restricted as described above): surrogates, codepoints above 0x10FFFF and
NUL become U+FFFD. -/
def numDecode (num : Nat) : List Char :=
  if num = 0 || (0xD800 ≤ num && num ≤ 0xDFFF) || num > 0x10FFFF then ['�']
  else [Char.ofNat num]

def isDecDigit (c : Char) : Bool := '0' ≤ c && c ≤ '9'

def isHexDigitL (c : Char) : Bool :=
  ('0' ≤ c && c ≤ '9') || ('a' ≤ c && c ≤ 'f') || ('A' ≤ c && c ≤ 'F')

def decVal (c : Char) : Nat := c.toNat - '0'.toNat

def hexVal (c : Char) : Nat :=
  if '0' ≤ c && c ≤ '9' then c.toNat - '0'.toNat
  else if 'a' ≤ c && c ≤ 'f' then c.toNat - 'a'.toNat + 10
  else c.toNat - 'A'.toNat + 10

def digitsToNat (base : Nat) (f : Char → Nat) (ds : List Char) : Nat :=
  ds.foldl (fun acc c => acc * base + f c) 0

/-- Numeric charref alternatives of the regex (`#[0-9]+;?` and
`#[xX][0-9a-fA-F]+;?`), applied to the text after the `#`; the count also
covers the `#` itself. -/
def parseNumeric (r2 : List Char) : Option (List Char × Nat) :=
  match r2 with
  | x :: r3 =>
    if x = 'x' || x = 'X' then
      let ds := r3.takeWhile isHexDigitL
      if ds = [] then none
      else
        let after := r3.drop ds.length
        if after.head? = some ';' then
          some (numDecode (digitsToNat 16 hexVal ds), 2 + ds.length + 1)
        else some (numDecode (digitsToNat 16 hexVal ds), 2 + ds.length)
    else
      let ds := r2.takeWhile isDecDigit
      if ds = [] then none
      else
        let after := r2.drop ds.length
        if after.head? = some ';' then
          some (numDecode (digitsToNat 10 decVal ds), 1 + ds.length + 1)
        else some (numDecode (digitsToNat 10 decVal ds), 1 + ds.length)
  | [] => none

/-- Named charref alternative (`[^\t\n\x0c <&#;]{1,32};?`).  On a failed
table lookup the captured text is reproduced verbatim (CPython returns
`'&' + s`), but the scan still advances past it. -/
def parseNamed (rest : List Char) : Option (List Char × Nat) :=
  let run := (rest.takeWhile namedChar).take 32
  if run = [] then none
  else
    let after := rest.drop run.length
    let s := if after.head? = some ';' then run ++ [';'] else run
    let consumed := if after.head? = some ';' then run.length + 1 else run.length
    match findNamed s with
    | some (v, leftover) => some (v ++ leftover, consumed)
    | none => some ('&' :: s, consumed)

/-- Try to parse one character reference right after a `&`.  Returns the
replacement text and the number of characters consumed after the `&`. -/
def parseCharref (rest : List Char) : Option (List Char × Nat) :=
  match rest with
  | [] => none
  | c :: r2 => if c = '#' then parseNumeric r2 else parseNamed (c :: r2)

/-- Fuel-indexed scanner of `html.unescape`; each step consumes at least one
character, so fuel equal to the input length always suffices. -/
def unescapeFuel : Nat → List Char → List Char
  | 0, l => l
  | _ + 1, [] => []
  | fuel + 1, c :: rest =>
    if c = '&' then
      match parseCharref rest with
      | some (d, n) => d ++ unescapeFuel fuel (rest.drop n)
      | none => '&' :: unescapeFuel fuel rest
    else c :: unescapeFuel fuel rest

def htmlUnescape (l : List Char) : List Char := unescapeFuel l.length l

/-- `text_cleaner.clean_html_entities`.  `html.unescape` is total, so the
source's defensive `except`-fallback (return the original text) is
unreachable in the model. -/
def clean_html_entities (text : Option (List Char)) : List Char :=
  match text with
  | none => []
  | some t => if t = [] then [] else htmlUnescape t

/-- `re.sub(r' +', ' ', text)`: collapse each run of spaces to one space
(a space directly followed by a space is dropped). -/
def collapseSpaces : List Char → List Char
  | c1 :: c2 :: rest =>
    if c1 = ' ' && c2 = ' ' then collapseSpaces (c2 :: rest)
    else c1 :: collapseSpaces (c2 :: rest)
  | l => l

/-- `re.sub(r'\n\n+', '\n\n', text)`: collapse each run of two-or-more
newlines to exactly two (a newline directly followed by two newlines is
dropped). -/
def collapseNewlines : List Char → List Char
  | c1 :: c2 :: c3 :: rest =>
    if c1 = '\n' && c2 = '\n' && c3 = '\n' then collapseNewlines (c2 :: c3 :: rest)
    else c1 :: collapseNewlines (c2 :: c3 :: rest)
  | l => l

/-- `text_cleaner.clean_extra_whitespace`. -/
def clean_extra_whitespace (text : Option (List Char)) : List Char :=
  match text with
  | none => []
  | some t => if t = [] then [] else pyStrip (collapseNewlines (collapseSpaces t))

/-- `text_cleaner.clean_text`. -/
def clean_text (text : Option (List Char)) : List Char :=
  match text with
  | none => []
  | some t =>
    if t = [] then []
    else clean_extra_whitespace (some (clean_html_entities (some t)))

/-! ### `name_detector.NameDetector` -/

/-- One roster entry as handed to `NameDetector.__init__`
(`{'name': ..., 'role': ...}`). -/
structure Participant where
  name : List Char
  role : List Char
deriving DecidableEq

/-- The names one user contributes to the roster set
(body of the loop of `NameDetector._extract_roster_names`): the stripped
full name lower-cased, plus each whitespace token longer than one character,
lower-cased; users whose stripped name is empty contribute nothing. -/
def userNames (u : Participant) : List (List Char) :=
  let fn := pyStrip u.name
  if fn = [] then []
  else lowerL fn ::
    (pySplit fn).filterMap (fun p => if p.length > 1 then some (lowerL p) else none)

/-- `NameDetector._extract_roster_names`; the Python `set` is modelled as a
duplicate-free list. -/
def extract_roster_names (users : List Participant) : List (List Char) :=
  ((users.map userNames).flatten).dedup

/-- `NameDetector._is_roster_name`. -/
def is_roster_name (roster : List (List Char)) (name : List Char) : Bool :=
  let nl := lowerL name
  if roster.contains nl then true
  else (pySplit nl).any (fun p => roster.contains p)

/-- The type of the entity-recognition oracle (`self.nlp`): a text yields a
list of `(entity text, entity label)` pairs, or an exception. -/
def Nlp : Type := List Char → Except String (List (List Char × List Char))

/-- `NameDetector.find_names_in_text`: the found-names list collects
`ent.text.strip()` for every entity labelled PERSON that passes the roster
check; a failing recognizer call is caught and contributes nothing;
`list(set(...))` is modelled by `dedup`. -/
def find_names_in_text (nlp : Nlp) (roster : List (List Char))
    (text : Option (List Char)) : List (List Char) :=
  match text with
  | none => []
  | some t =>
    if t = [] then []
    else
      match nlp t with
      | .error _ => []
      | .ok ents =>
        ((ents.filter (fun e =>
            e.2 == "PERSON".data && is_roster_name roster (pyStrip e.1))).map
          (fun e => pyStrip e.1)).dedup

/-! ### `name_detector.NameDetector.redact_names` -/

/-- Case-insensitive comparison of two characters, modelling
`re.IGNORECASE` on the ASCII texts of this development. -/
def ciEq (a b : Char) : Bool := a.toLower == b.toLower

/-- Whether `pat` is a case-insensitive prefix of `l`. -/
def ciIsPrefixOf : List Char → List Char → Bool
  | [], _ => true
  | _ :: _, [] => false
  | p :: ps, t :: ts => ciEq p t && ciIsPrefixOf ps ts

/-- Fuel-indexed scanner of
`re.compile(re.escape(name), re.IGNORECASE).sub(placeholder, text)`:
leftmost non-overlapping case-insensitive literal replacement.  Each step
consumes at least one character, so fuel equal to the text length always
suffices.  (Names reaching this point are never empty: the roster never
contains the empty string.) -/
def ciReplaceFuel (pat repl : List Char) : Nat → List Char → List Char
  | 0, l => l
  | _ + 1, [] => []
  | fuel + 1, t :: ts =>
    if pat ≠ [] && ciIsPrefixOf pat (t :: ts) then
      repl ++ ciReplaceFuel pat repl fuel (ts.drop (pat.length - 1))
    else t :: ciReplaceFuel pat repl fuel ts

def ciReplaceAll (pat repl l : List Char) : List Char :=
  ciReplaceFuel pat repl l.length l

/-- Stable insertion for descending-length order (ties keep the earlier
element first, as Python's stable `list.sort(key=len, reverse=True)` does). -/
def insertByLenDesc (x : List Char) : List (List Char) → List (List Char)
  | [] => [x]
  | y :: ys =>
    if x.length ≤ y.length then y :: insertByLenDesc x ys else x :: y :: ys

/-- `names_to_redact.sort(key=len, reverse=True)`. -/
def sortByLenDesc : List (List Char) → List (List Char)
  | [] => []
  | x :: xs => insertByLenDesc x (sortByLenDesc xs)

def namePlaceholder : List Char := "[NAME]".data

/-- The replacement loop of `NameDetector.redact_names` for a given list of
names (the Redactor contract `redact(text, names, placeholder)`): empty or
absent text yields `""`; an empty name list returns the text unchanged;
otherwise every name, longest first, is replaced case-insensitively in the
progressively rewritten text. -/
def redactWith (names : List (List Char)) (placeholder : List Char)
    (text : Option (List Char)) : List Char :=
  match text with
  | none => []
  | some t =>
    if t = [] then []
    else if names = [] then t
    else (sortByLenDesc names).foldl (fun acc n => ciReplaceAll n placeholder acc) t

/-- `NameDetector.redact_names` with the default placeholder: detect, then
substitute. -/
def redact_names (nlp : Nlp) (roster : List (List Char))
    (text : Option (List Char)) : List Char :=
  redactWith (find_names_in_text nlp roster text) namePlaceholder text

/-! ### `pii_remover.PIIRemover`

The structured post record, exactly the shape `_structure_post` /
`_extract_answer` / `_extract_followups_with_replies` in
`piazza_scraper.py` produce and `pii_remover.py` consumes: replies carry no
further children (the scraper flattens the source tree at that depth). -/

structure Reply where
  id : List Char
  rtype : List Char
  content : List Char
  created : List Char
  updated : List Char
  author_type : List Char
deriving DecidableEq

structure Followup where
  id : List Char
  content : List Char
  created : List Char
  updated : List Char
  author_type : List Char
  replies : List Reply
deriving DecidableEq

structure Answer where
  id : List Char
  content : List Char
  created : List Char
  updated : List Char
  endorsed_by : Option (List (List Char))
deriving DecidableEq

structure Post where
  post_id : List Char
  post_number : Nat
  ptype : List Char
  is_public : Bool
  created : List Char
  updated : List Char
  subject : List Char
  content : List Char
  folders : List (List Char)
  tags : List (List Char)
  num_favorites : Nat
  unique_views : Nat
  student_answer : Option Answer
  instructor_answer : Option Answer
  followups : List Followup
  scraped_at : List Char
deriving DecidableEq

/-- `PIIRemover._clean_field`: decode entities, then redact names. -/
def clean_field (nlp : Nlp) (roster : List (List Char)) (text : List Char) : List Char :=
  if text = [] then []
  else redact_names nlp roster (some (clean_text (some text)))

/-- `PIIRemover._clean_answer` combined with the truthiness guard at its
call sites (`if post.get('student_answer'): ...`): an absent answer stays
absent, a present one is copied with its content cleaned. -/
def clean_answer (nlp : Nlp) (roster : List (List Char)) :
    Option Answer → Option Answer
  | none => none
  | some a => some { a with content := clean_field nlp roster a.content }

/-- The reply-cleaning inner loop of `PIIRemover._clean_followups`. -/
def clean_reply (nlp : Nlp) (roster : List (List Char)) (r : Reply) : Reply :=
  { r with content := clean_field nlp roster r.content }

/-- The followup-cleaning body of `PIIRemover._clean_followups` (the
`if followup.get('replies')` guard is equivalent to mapping over a possibly
empty list). -/
def clean_followup (nlp : Nlp) (roster : List (List Char)) (f : Followup) : Followup :=
  { f with
    content := clean_field nlp roster f.content,
    replies := f.replies.map (clean_reply nlp roster) }

/-- `PIIRemover._clean_followups`. -/
def clean_followups (nlp : Nlp) (roster : List (List Char))
    (fs : List Followup) : List Followup :=
  fs.map (clean_followup nlp roster)

/-- `PIIRemover.clean_post`: copy the post, replacing each text-bearing
field by its cleaned form; every structural field is carried over by the
copy. -/
def clean_post (nlp : Nlp) (roster : List (List Char)) (p : Post) : Post :=
  { p with
    subject := clean_field nlp roster p.subject,
    content := clean_field nlp roster p.content,
    student_answer := clean_answer nlp roster p.student_answer,
    instructor_answer := clean_answer nlp roster p.instructor_answer,
    followups := clean_followups nlp roster p.followups }

/-- `PIIRemover.clean_posts_batch`, parametrised by the per-post cleaner so
that the `try/except` can be modelled: in Python the only exceptions
`clean_post` can raise come from malformed untyped records, which the typed
embedding cannot produce, so the cleaner is abstracted as a fallible
function.  A failed post is kept verbatim in the output. -/
def clean_posts_batch (clean : Post → Except String Post) : List Post → List Post
  | [] => []
  | p :: rest =>
    (match clean p with
     | .ok c => c
     | .error _ => p) :: clean_posts_batch clean rest

/-- `clean_post` as a cleaner for `clean_posts_batch`; total in the
embedding (see `clean_posts_batch`). -/
def clean_post_ok (nlp : Nlp) (roster : List (List Char)) (p : Post) :
    Except String Post :=
  Except.ok (clean_post nlp roster p)

/-! ### Observation functions and concrete oracles used by the theorems -/

/-- All fields of an Answer except its text content. -/
def answerShape (a : Answer) :
    List Char × List Char × List Char × Option (List (List Char)) :=
  (a.id, a.created, a.updated, a.endorsed_by)

/-- All fields of a Reply except its text content. -/
def replyShape (r : Reply) :
    List Char × List Char × List Char × List Char × List Char :=
  (r.id, r.rtype, r.created, r.updated, r.author_type)

/-- All fields of a Followup except text content, replies reduced to their
own shapes. -/
def followupShape (f : Followup) :
    List Char × List Char × List Char × List Char ×
      List (List Char × List Char × List Char × List Char × List Char) :=
  (f.id, f.created, f.updated, f.author_type, f.replies.map replyShape)

/-- The field pipeline the sanitizer applies, in the source's fixed order:
Normalizer (`clean_text`), then Detector (`find_names_in_text`), then
Redactor (`redactWith`). -/
def fieldPipeline (nlp : Nlp) (roster : List (List Char)) (t : List Char) : List Char :=
  redactWith (find_names_in_text nlp roster (some (clean_text (some t))))
    namePlaceholder (some (clean_text (some t)))

/-- Whether the text contains two adjacent space characters. -/
def hasDoubleSpace : List Char → Bool
  | c1 :: c2 :: rest => (c1 = ' ' && c2 = ' ') || hasDoubleSpace (c2 :: rest)
  | _ => false

/-- Whether the text contains three adjacent newline characters. -/
def hasTripleNL : List Char → Bool
  | c1 :: c2 :: c3 :: rest =>
    (c1 = '\n' && c2 = '\n' && c3 = '\n') || hasTripleNL (c2 :: c3 :: rest)
  | _ => false

/-- Whether the text carries no leading and no trailing whitespace. -/
def strippedOk (l : List Char) : Bool :=
  (match l.head? with
   | none => true
   | some c => !isPySpace c) &&
  (match l.getLast? with
   | none => true
   | some c => !isPySpace c)

/-- The five entity-encoded punctuation marks of the module docstring. -/
def punctEntities : List (List Char) :=
  ["&amp;".data, "&#39;".data, "&lt;".data, "&gt;".data, "&quot;".data]

/-- The corresponding decoded punctuation characters. -/
def punctChars : List Char := ['&', '\'', '<', '>', '"']

/-- Texts that are concatenations of entity-encoded punctuation marks. -/
inductive OnlyEntities : List Char → Prop
  | nil : OnlyEntities []
  | cons (e rest : List Char) : e ∈ punctEntities → OnlyEntities rest →
      OnlyEntities (e ++ rest)

/-- A recognizer that always raises. -/
def failNlp : Nlp := fun _ => .error "boom"

/-- A small concrete roster: two students. -/
def rosterJS : List (List Char) :=
  extract_roster_names
    [⟨"John Smith".data, "student".data⟩, ⟨"Sarah Johnson".data, "student".data⟩]

/-- A recognizer returning one PERSON span that carries surrounding
whitespace. -/
def wsNlp : Nlp := fun _ => .ok [("  Sarah ".data, "PERSON".data)]

/-- A deterministic recognizer that tags `"John"` in the original text but
tags `"Sarah"` once the text has been rewritten to
`"[NAME] and Sarah talked."` (the span the first pass missed). -/
def trickyNlp : Nlp := fun t =>
  if t = "John and Sarah talked.".data then .ok [("John".data, "PERSON".data)]
  else if t = "[NAME] and Sarah talked.".data then .ok [("Sarah".data, "PERSON".data)]
  else .ok []

/-- A recognizer that tags `"John"` in one fixed text and nothing anywhere
else. -/
def okJohnNlp : Nlp := fun t =>
  if t = "John here".data then .ok [("John".data, "PERSON".data)] else .ok []

/-! ## Theorems -/

theorem perm_insertByLenDesc (x : List Char) (l : List (List Char)) :
    (insertByLenDesc x l).Perm (x :: l) := by
  induction l with
  | nil => exact List.Perm.refl _
  | cons y ys ih =>
    simp only [insertByLenDesc]
    split
    · exact (ih.cons y).trans (List.Perm.swap x y ys)
    · exact List.Perm.refl _

theorem pairwise_insertByLenDesc (x : List Char) (l : List (List Char))
    (h : l.Pairwise (fun a b => b.length ≤ a.length)) :
    (insertByLenDesc x l).Pairwise (fun a b => b.length ≤ a.length) := by
  induction l with
  | nil => simp [insertByLenDesc]
  | cons y ys ih =>
    rcases List.pairwise_cons.mp h with ⟨hy, hys⟩
    simp only [insertByLenDesc]
    split
    · next hxy =>
      refine List.pairwise_cons.mpr ⟨?_, ih hys⟩
      intro b hb
      rcases List.mem_cons.mp ((perm_insertByLenDesc x ys).mem_iff.mp hb) with rfl | hb
      · exact hxy
      · exact hy b hb
    · next hxy =>
      refine List.pairwise_cons.mpr ⟨?_, h⟩
      intro b hb
      rcases List.mem_cons.mp hb with rfl | hb
      · exact Nat.le_of_not_le hxy
      · exact le_trans (hy b hb) (Nat.le_of_not_le hxy)

theorem sortByLenDesc_perm (names : List (List Char)) :
    (sortByLenDesc names).Perm names := by
  induction names with
  | nil => exact List.Perm.refl _
  | cons x xs ih =>
    exact (perm_insertByLenDesc x (sortByLenDesc xs)).trans (ih.cons x)

theorem sortByLenDesc_sorted (names : List (List Char)) :
    (sortByLenDesc names).Pairwise (fun a b => b.length ≤ a.length) := by
  induction names with
  | nil => simp [sortByLenDesc]
  | cons x xs ih => exact pairwise_insertByLenDesc x _ ih

/-- C1: the Redactor substitutes the detected names in order of descending
literal length (the iteration list is a permutation of the given names,
pairwise sorted longest-first), each step being a case-insensitive literal
replacement of every occurrence in the progressively rewritten text; an
empty name set leaves any text unchanged, absent text yields the empty
string, and on `"John Smith and John talked."` with names
`{"John Smith", "John"}` (either enumeration of the set) the result is
`"[NAME] and [NAME] talked."` with no residue. -/
theorem C1_redactor_contract :
    (∀ names, (sortByLenDesc names).Perm names ∧
      (sortByLenDesc names).Pairwise (fun a b => b.length ≤ a.length)) ∧
    (∀ names t, names ≠ [] → t ≠ [] →
      redactWith names namePlaceholder (some t) =
        (sortByLenDesc names).foldl (fun acc n => ciReplaceAll n namePlaceholder acc) t) ∧
    (∀ t, redactWith [] namePlaceholder (some t) = t) ∧
    (∀ names, redactWith names namePlaceholder none = []) ∧
    redactWith ["John Smith".data, "John".data] namePlaceholder
      (some "John Smith and John talked.".data) = "[NAME] and [NAME] talked.".data ∧
    redactWith ["John".data, "John Smith".data] namePlaceholder
      (some "John Smith and John talked.".data) = "[NAME] and [NAME] talked.".data := by
  refine ⟨fun names => ⟨sortByLenDesc_perm names, sortByLenDesc_sorted names⟩,
    ?_, ?_, ?_, by decide, by decide⟩
  · intro names t hn ht
    simp [redactWith, hn, ht]
  · intro t
    by_cases ht : t = [] <;> simp [redactWith, ht]
  · intro names
    rfl

/-- C1 witness: the order-of-substitution clause instantiated on the
claim's own example. -/
theorem C1_redactor_contract_witness :
    (["John Smith".data, "John".data] ≠ ([] : List (List Char))) ∧
    ("John Smith and John talked.".data ≠ []) ∧
    redactWith ["John Smith".data, "John".data] namePlaceholder
      (some "John Smith and John talked.".data) =
      (sortByLenDesc ["John Smith".data, "John".data]).foldl
        (fun acc n => ciReplaceAll n namePlaceholder acc)
        "John Smith and John talked.".data :=
  ⟨by decide, by decide,
    C1_redactor_contract.2.1 ["John Smith".data, "John".data]
      "John Smith and John talked.".data (by decide) (by decide)⟩

/-- C3: the batch cleaner preserves length and positional order, and at
every position where the per-post cleaner raises, the original unsanitized
post appears in the output; the batch function itself is total. -/
theorem C3_batch_robustness (clean : Post → Except String Post) (posts : List Post) :
    (clean_posts_batch clean posts).length = posts.length ∧
    ∀ i : Nat, (clean_posts_batch clean posts)[i]? =
      (posts[i]?).map (fun p =>
        match clean p with
        | .ok c => c
        | .error _ => p) := by
  induction posts with
  | nil => exact ⟨rfl, fun i => rfl⟩
  | cons p rest ih =>
    refine ⟨by simpa [clean_posts_batch] using ih.1, fun i => ?_⟩
    cases i with
    | zero => simp [clean_posts_batch]
    | succ j => simpa [clean_posts_batch] using ih.2 j

/-- C5: a failing recognizer call is caught and the call reports no names
found. -/
theorem C5_detection_failure_caught (nlp : Nlp) (roster : List (List Char))
    (t : List Char) (msg : String) (h : nlp t = .error msg) :
    find_names_in_text nlp roster (some t) = [] := by
  by_cases ht : t = [] <;> simp [find_names_in_text, ht, h]

/-- C5 witness: the always-failing recognizer on a concrete text. -/
theorem C5_detection_failure_caught_witness :
    failNlp "Ask Sarah".data = .error "boom" ∧
    find_names_in_text failNlp ["sarah".data] (some "Ask Sarah".data) = [] :=
  ⟨rfl, C5_detection_failure_caught failNlp ["sarah".data] "Ask Sarah".data "boom" rfl⟩

/-! ### Structural views used to state field preservation -/

theorem clean_answer_shape (nlp : Nlp) (roster : List (List Char))
    (oa : Option Answer) :
    (clean_answer nlp roster oa).map answerShape = oa.map answerShape := by
  cases oa <;> rfl

theorem clean_followups_shape (nlp : Nlp) (roster : List (List Char))
    (fs : List Followup) :
    (clean_followups nlp roster fs).map followupShape = fs.map followupShape := by
  simp only [clean_followups, List.map_map]
  refine List.map_congr_left fun f _ => ?_
  simp [Function.comp, clean_followup, followupShape, clean_reply, List.map_map,
    replyShape]

/-- C8: `clean_post` is a pure function of its argument (the embedding is a
function on immutable values, matching the source's copy-then-replace
discipline) and the returned post keeps every structural field of the
input — identifiers, numbers, flags, folders, tags, timestamps, answer
metadata and endorsements, followup/reply ids, types and author types —
and a one-element batch returns exactly one post with the same `post_id`. -/
theorem C8_structural_passthrough (nlp : Nlp) (roster : List (List Char)) (p : Post) :
    (clean_post nlp roster p).post_id = p.post_id ∧
    (clean_post nlp roster p).post_number = p.post_number ∧
    (clean_post nlp roster p).ptype = p.ptype ∧
    (clean_post nlp roster p).is_public = p.is_public ∧
    (clean_post nlp roster p).created = p.created ∧
    (clean_post nlp roster p).updated = p.updated ∧
    (clean_post nlp roster p).folders = p.folders ∧
    (clean_post nlp roster p).tags = p.tags ∧
    (clean_post nlp roster p).num_favorites = p.num_favorites ∧
    (clean_post nlp roster p).unique_views = p.unique_views ∧
    (clean_post nlp roster p).scraped_at = p.scraped_at ∧
    ((clean_post nlp roster p).student_answer).map answerShape =
      p.student_answer.map answerShape ∧
    ((clean_post nlp roster p).instructor_answer).map answerShape =
      p.instructor_answer.map answerShape ∧
    (clean_post nlp roster p).followups.map followupShape =
      p.followups.map followupShape ∧
    (clean_posts_batch (clean_post_ok nlp roster) [p]).length = 1 ∧
    (clean_posts_batch (clean_post_ok nlp roster) [p]).map Post.post_id = [p.post_id] :=
  ⟨rfl, rfl, rfl, rfl, rfl, rfl, rfl, rfl, rfl, rfl, rfl,
    clean_answer_shape nlp roster p.student_answer,
    clean_answer_shape nlp roster p.instructor_answer,
    clean_followups_shape nlp roster p.followups,
    rfl, rfl⟩

theorem clean_field_eq_pipeline (nlp : Nlp) (roster : List (List Char))
    (t : List Char) :
    clean_field nlp roster t = fieldPipeline nlp roster t := by
  by_cases ht : t = []
  · simp [clean_field, fieldPipeline, ht, clean_text, find_names_in_text, redactWith]
  · simp [clean_field, fieldPipeline, ht, redact_names]

/-- C2: sanitizing a post applies normalize-then-detect-then-redact to each
text-bearing content field at every depth of the followup/reply tree of the
post record: the subject, the main content, both nested answer contents,
every followup content and every reply content.  (In the post record the
scraper produces — the shape the sanitizer consumes — replies carry no
further children, so these depths exhaust the tree.) -/
theorem C2_pipeline_on_every_field (nlp : Nlp) (roster : List (List Char)) (p : Post) :
    (clean_post nlp roster p).subject = fieldPipeline nlp roster p.subject ∧
    (clean_post nlp roster p).content = fieldPipeline nlp roster p.content ∧
    ((clean_post nlp roster p).student_answer).map Answer.content =
      p.student_answer.map (fun a => fieldPipeline nlp roster a.content) ∧
    ((clean_post nlp roster p).instructor_answer).map Answer.content =
      p.instructor_answer.map (fun a => fieldPipeline nlp roster a.content) ∧
    (clean_post nlp roster p).followups.map Followup.content =
      p.followups.map (fun f => fieldPipeline nlp roster f.content) ∧
    (clean_post nlp roster p).followups.map (fun f => f.replies.map Reply.content) =
      p.followups.map
        (fun f => f.replies.map (fun r => fieldPipeline nlp roster r.content)) := by
  refine ⟨clean_field_eq_pipeline nlp roster p.subject,
    clean_field_eq_pipeline nlp roster p.content, ?_, ?_, ?_, ?_⟩
  · cases h : p.student_answer <;>
      simp [clean_post, clean_answer, h, clean_field_eq_pipeline]
  · cases h : p.instructor_answer <;>
      simp [clean_post, clean_answer, h, clean_field_eq_pipeline]
  · simp [clean_post, clean_followups, clean_followup, List.map_map, Function.comp,
      clean_field_eq_pipeline]
  · simp only [clean_post, clean_followups, List.map_map]
    refine List.map_congr_left fun f _ => ?_
    simp [Function.comp, clean_followup, clean_reply, List.map_map,
      clean_field_eq_pipeline]

/-- C7: membership in the roster index is exactly: some participant's
trimmed name is non-empty and the candidate is either its case-folded full
form or the case-folding of one of its whitespace tokens of length greater
than one; the index from an empty participant list is empty, every
membership test on it is false, and detection with it finds no names for
any recognizer and any text. -/
theorem C7_roster_index_contents (users : List Participant) (x : List Char) :
    (x ∈ extract_roster_names users ↔
      ∃ u ∈ users, pyStrip u.name ≠ [] ∧
        (x = lowerL (pyStrip u.name) ∨
          ∃ p ∈ pySplit (pyStrip u.name), p.length > 1 ∧ x = lowerL p)) ∧
    extract_roster_names [] = [] ∧
    (∀ name, is_roster_name [] name = false) ∧
    (∀ nlp text, find_names_in_text nlp [] text = []) := by
  refine ⟨?_, rfl, ?_, ?_⟩
  · simp only [extract_roster_names, List.mem_dedup, List.mem_flatten, List.mem_map]
    constructor
    · rintro ⟨l, ⟨u, hu, rfl⟩, hx⟩
      refine ⟨u, hu, ?_⟩
      simp only [userNames] at hx
      split at hx
      · simp at hx
      · next hfn =>
        refine ⟨hfn, ?_⟩
        rcases List.mem_cons.mp hx with rfl | hx
        · exact Or.inl rfl
        · rcases List.mem_filterMap.mp hx with ⟨p, hp, hpx⟩
          refine Or.inr ⟨p, hp, ?_⟩
          by_cases hlen : p.length > 1
          · simp [hlen] at hpx
            exact ⟨hlen, hpx.symm⟩
          · simp [hlen] at hpx
    · rintro ⟨u, hu, hfn, hx⟩
      refine ⟨userNames u, ⟨u, hu, rfl⟩, ?_⟩
      simp only [userNames, if_neg hfn]
      rcases hx with rfl | ⟨p, hp, hlen, rfl⟩
      · exact List.mem_cons_self _ _
      · exact List.mem_cons_of_mem _ (List.mem_filterMap.mpr ⟨p, hp, by simp [hlen]⟩)
  · intro name
    simp [is_roster_name]
  · intro nlp text
    match text with
    | none => rfl
    | some t =>
      by_cases ht : t = []
      · simp [find_names_in_text, ht]
      · cases hn : nlp t with
        | error e => simp [find_names_in_text, ht, hn]
        | ok ents =>
          simp [find_names_in_text, ht, hn, is_roster_name, List.filter_eq_nil_iff]

/-! ### C4 and C10: detection output and second-pass behaviour -/

/-- C4 counterexample: the span literal `"  Sarah "` is labelled PERSON and
itself satisfies the roster contains test, yet `find_names_in_text` does
not return it; it returns the trimmed text `"Sarah"` instead, which is not
the literal text of any recognizer span.  So the result is not the set of
span literals. -/
theorem C4_counterexample_trimmed_span :
    is_roster_name rosterJS "  Sarah ".data = true ∧
    find_names_in_text wsNlp rosterJS (some "met Sarah today".data) = ["Sarah".data] ∧
    "  Sarah ".data ∉ find_names_in_text wsNlp rosterJS (some "met Sarah today".data) := by
  refine ⟨by decide, by decide, by decide⟩

/-- C4 amended: for every recognizer result, `find_names_in_text` returns
exactly the set of whitespace-trimmed literal texts of the spans labelled
PERSON whose trimmed literal satisfies the roster contains test,
deduplicated by case-sensitive literal identity (the output has no
duplicates) with casing otherwise preserved; empty or absent text yields
the empty result without consulting the recognizer. -/
theorem C4_found_names_characterized (nlp : Nlp) (roster : List (List Char))
    (t : List Char) (ents : List (List Char × List Char))
    (h : nlp t = .ok ents) (ht : t ≠ []) :
    (∀ n, n ∈ find_names_in_text nlp roster (some t) ↔
      ∃ e ∈ ents, e.2 = "PERSON".data ∧ pyStrip e.1 = n ∧
        is_roster_name roster n = true) ∧
    (find_names_in_text nlp roster (some t)).Nodup ∧
    find_names_in_text nlp roster (some []) = [] ∧
    find_names_in_text nlp roster none = [] := by
  refine ⟨?_, ?_, by simp [find_names_in_text], rfl⟩
  · intro n
    simp only [find_names_in_text, if_neg ht, h, List.mem_dedup, List.mem_map,
      List.mem_filter, Bool.and_eq_true, beq_iff_eq]
    constructor
    · rintro ⟨e, ⟨he, hlab, hro⟩, rfl⟩
      exact ⟨e, he, hlab, rfl, hro⟩
    · rintro ⟨e, he, hlab, rfl, hro⟩
      exact ⟨e, ⟨he, hlab, hro⟩, rfl⟩
  · simp [find_names_in_text, if_neg ht, h, List.nodup_dedup]

/-- C4 witness: the characterization instantiated on the
whitespace-carrying span. -/
theorem C4_found_names_characterized_witness :
    "Sarah".data ∈ find_names_in_text wsNlp rosterJS (some "met Sarah today".data) := by
  have h := C4_found_names_characterized wsNlp rosterJS "met Sarah today".data
    [("  Sarah ".data, "PERSON".data)] rfl (by decide)
  exact (h.1 "Sarah".data).mpr
    ⟨("  Sarah ".data, "PERSON".data), by decide, by decide, by decide, by decide⟩

/-- C10 counterexample: after the first find-and-redact pass, running
detection on the redacted output still yields a roster match, and a second
find-then-redact pass changes the text again — the second full pass is not
a no-op for every text and roster. -/
theorem C10_counterexample_second_pass :
    find_names_in_text trickyNlp rosterJS
      (some (redact_names trickyNlp rosterJS (some "John and Sarah talked.".data))) ≠ [] ∧
    redact_names trickyNlp rosterJS
        (some (redact_names trickyNlp rosterJS (some "John and Sarah talked.".data))) ≠
      redact_names trickyNlp rosterJS (some "John and Sarah talked.".data) := by
  refine ⟨by decide, by decide⟩

/-- C10 amended: the second find-then-redact pass returns the redacted
text unchanged whenever detection on the redacted output yields no roster
matches; the premise holds when the recognizer reports nothing on the
rewritten text, but not universally (see the counterexample). -/
theorem C10_second_pass_noop_of_no_matches (nlp : Nlp) (roster : List (List Char))
    (t : List Char)
    (h : find_names_in_text nlp roster
      (some (redact_names nlp roster (some t))) = []) :
    redact_names nlp roster (some (redact_names nlp roster (some t))) =
      redact_names nlp roster (some t) := by
  have h2 : redact_names nlp roster (some (redact_names nlp roster (some t))) =
      redactWith [] namePlaceholder (some (redact_names nlp roster (some t))) := by
    rw [redact_names, h]
  rw [h2]
  by_cases hr : redact_names nlp roster (some t) = [] <;> simp [redactWith, hr]

/-- C10 witness: with a recognizer that reports nothing on the redacted
text, the second pass is a no-op. -/
theorem C10_second_pass_noop_witness :
    find_names_in_text okJohnNlp rosterJS
      (some (redact_names okJohnNlp rosterJS (some "John here".data))) = [] ∧
    redact_names okJohnNlp rosterJS
        (some (redact_names okJohnNlp rosterJS (some "John here".data))) =
      redact_names okJohnNlp rosterJS (some "John here".data) :=
  ⟨by decide, C10_second_pass_noop_of_no_matches okJohnNlp rosterJS
    "John here".data (by decide)⟩

/-! ### C6: shape of the normalizer output -/

theorem collapseSpaces_cons (c : Char) (l : List Char) :
    ∃ xs, collapseSpaces (c :: l) = c :: xs := by
  induction l generalizing c with
  | nil => exact ⟨[], rfl⟩
  | cons d rest ih =>
    by_cases h : c = ' ' ∧ d = ' '
    · rcases ih d with ⟨xs, hxs⟩
      obtain ⟨rfl, rfl⟩ := h
      exact ⟨xs, by simpa [collapseSpaces] using hxs⟩
    · refine ⟨collapseSpaces (d :: rest), ?_⟩
      have hb : (decide (c = ' ') && decide (d = ' ')) = false := by
        rcases Decidable.not_and_iff_or_not.mp h with h1 | h1 <;> simp [h1]
      simp [collapseSpaces, hb]

theorem hasDoubleSpace_collapseSpaces (l : List Char) :
    hasDoubleSpace (collapseSpaces l) = false := by
  induction l with
  | nil => rfl
  | cons c rest ih =>
    match rest with
    | [] => rfl
    | d :: rest' =>
      by_cases h : c = ' ' ∧ d = ' '
      · obtain ⟨rfl, rfl⟩ := h
        simpa [collapseSpaces] using ih
      · have hb : (decide (c = ' ') && decide (d = ' ')) = false := by
          rcases Decidable.not_and_iff_or_not.mp h with h1 | h1 <;> simp [h1]
        rcases collapseSpaces_cons d rest' with ⟨xs, hxs⟩
        simp only [collapseSpaces, hb, Bool.false_eq_true, if_false, hxs]
        simp only [hasDoubleSpace, ← hxs, ih, Bool.or_false]
        simpa using fun hc hd => h ⟨hc, hd⟩

theorem collapseNewlines_cons (c : Char) (l : List Char) :
    ∃ xs, collapseNewlines (c :: l) = c :: xs := by
  induction l generalizing c with
  | nil => exact ⟨[], rfl⟩
  | cons d rest ih =>
    match rest with
    | [] => exact ⟨[d], rfl⟩
    | e :: rest' =>
      by_cases h : c = '\n' ∧ d = '\n' ∧ e = '\n'
      · rcases ih d with ⟨xs, hxs⟩
        obtain ⟨rfl, rfl, rfl⟩ := h
        exact ⟨xs, by simpa [collapseNewlines] using hxs⟩
      · refine ⟨collapseNewlines (d :: e :: rest'), ?_⟩
        have hb : (decide (c = '\n') && decide (d = '\n') && decide (e = '\n')) = false := by
          rcases Decidable.not_and_iff_or_not.mp h with h1 | h1
          · simp [h1]
          · rcases Decidable.not_and_iff_or_not.mp h1 with h2 | h2 <;> simp [h2]
        simp [collapseNewlines, hb]

theorem collapseNewlines_cons₂ (a b : Char) (l : List Char) :
    ∃ xs, collapseNewlines (a :: b :: l) = a :: b :: xs := by
  induction l generalizing a b with
  | nil => exact ⟨[], rfl⟩
  | cons e rest ih =>
    by_cases h : a = '\n' ∧ b = '\n' ∧ e = '\n'
    · rcases ih b e with ⟨xs, hxs⟩
      obtain ⟨rfl, rfl, rfl⟩ := h
      exact ⟨xs, by simpa [collapseNewlines] using hxs⟩
    · have hb : (decide (a = '\n') && decide (b = '\n') && decide (e = '\n')) = false := by
        rcases Decidable.not_and_iff_or_not.mp h with h1 | h1
        · simp [h1]
        · rcases Decidable.not_and_iff_or_not.mp h1 with h2 | h2 <;> simp [h2]
      rcases collapseNewlines_cons b (e :: rest) with ⟨xs, hxs⟩
      exact ⟨xs, by simp [collapseNewlines, hb, hxs]⟩

theorem hasDoubleSpace_tail (c : Char) (l : List Char)
    (h : hasDoubleSpace (c :: l) = false) : hasDoubleSpace l = false := by
  match l with
  | [] => rfl
  | d :: rest =>
    simp only [hasDoubleSpace, Bool.or_eq_false_iff] at h
    exact h.2

theorem hasDoubleSpace_collapseNewlines (l : List Char)
    (h : hasDoubleSpace l = false) :
    hasDoubleSpace (collapseNewlines l) = false := by
  induction l with
  | nil => rfl
  | cons c rest ih =>
    match rest with
    | [] => rfl
    | [d] => exact h
    | d :: e :: rest' =>
      have htl : hasDoubleSpace (d :: e :: rest') = false := hasDoubleSpace_tail c _ h
      by_cases hc : c = '\n' ∧ d = '\n' ∧ e = '\n'
      · obtain ⟨rfl, rfl, rfl⟩ := hc
        simpa [collapseNewlines] using ih htl
      · have hb : (decide (c = '\n') && decide (d = '\n') && decide (e = '\n')) = false := by
          rcases Decidable.not_and_iff_or_not.mp hc with h1 | h1
          · simp [h1]
          · rcases Decidable.not_and_iff_or_not.mp h1 with h2 | h2 <;> simp [h2]
        rcases collapseNewlines_cons d (e :: rest') with ⟨xs, hxs⟩
        simp only [collapseNewlines, hb, Bool.false_eq_true, if_false, hxs]
        simp only [hasDoubleSpace, ← hxs, ih htl, Bool.or_false]
        have : (decide (c = ' ') && decide (d = ' ')) = false := by
          simp only [hasDoubleSpace, Bool.or_eq_false_iff] at h
          exact h.1
        exact this

theorem hasTripleNL_collapseNewlines (l : List Char) :
    hasTripleNL (collapseNewlines l) = false := by
  induction l with
  | nil => rfl
  | cons c rest ih =>
    match rest with
    | [] => rfl
    | [d] => rfl
    | d :: e :: rest' =>
      by_cases hc : c = '\n' ∧ d = '\n' ∧ e = '\n'
      · obtain ⟨rfl, rfl, rfl⟩ := hc
        simpa [collapseNewlines] using ih
      · have hb : (decide (c = '\n') && decide (d = '\n') && decide (e = '\n')) = false := by
          rcases Decidable.not_and_iff_or_not.mp hc with h1 | h1
          · simp [h1]
          · rcases Decidable.not_and_iff_or_not.mp h1 with h2 | h2 <;> simp [h2]
        rcases collapseNewlines_cons₂ d e rest' with ⟨xs, hxs⟩
        simp only [collapseNewlines, hb, Bool.false_eq_true, if_false, hxs]
        simp only [hasTripleNL, ← hxs, ih, Bool.or_false]
        exact hb

theorem hasTripleNL_tail (c : Char) (l : List Char)
    (h : hasTripleNL (c :: l) = false) : hasTripleNL l = false := by
  match l with
  | [] => rfl
  | [d] => rfl
  | d :: e :: rest =>
    simp only [hasTripleNL, Bool.or_eq_false_iff] at h
    exact h.2

theorem hasDoubleSpace_append_left (A X : List Char)
    (h : hasDoubleSpace (A ++ X) = false) : hasDoubleSpace X = false := by
  induction A with
  | nil => exact h
  | cons a A' ih => exact ih (hasDoubleSpace_tail a _ h)

theorem hasDoubleSpace_append_right (X B : List Char)
    (h : hasDoubleSpace (X ++ B) = false) : hasDoubleSpace X = false := by
  induction X with
  | nil => rfl
  | cons x X' ih =>
    match X' with
    | [] => rfl
    | y :: xs =>
      simp only [List.cons_append, hasDoubleSpace, Bool.or_eq_false_iff] at h ⊢
      exact ⟨h.1, ih (by simpa using h.2)⟩

theorem hasTripleNL_append_left (A X : List Char)
    (h : hasTripleNL (A ++ X) = false) : hasTripleNL X = false := by
  induction A with
  | nil => exact h
  | cons a A' ih => exact ih (hasTripleNL_tail a _ h)

theorem hasTripleNL_append_right (X B : List Char)
    (h : hasTripleNL (X ++ B) = false) : hasTripleNL X = false := by
  induction X with
  | nil => rfl
  | cons x X' ih =>
    match X' with
    | [] => rfl
    | [y] => rfl
    | y :: z :: xs =>
      simp only [List.cons_append, hasTripleNL, Bool.or_eq_false_iff] at h ⊢
      exact ⟨h.1, ih (by simpa using h.2)⟩

theorem pyStrip_decomp (l : List Char) :
    ∃ A B, l = A ++ pyStrip l ++ B := by
  have h1 : l = l.takeWhile isPySpace ++ l.dropWhile isPySpace :=
    (List.takeWhile_append_dropWhile _ _).symm
  set m := l.dropWhile isPySpace with hm
  have h2 : m.reverse = m.reverse.takeWhile isPySpace ++ m.reverse.dropWhile isPySpace :=
    (List.takeWhile_append_dropWhile _ _).symm
  have h3 : m = (m.reverse.dropWhile isPySpace).reverse ++
      (m.reverse.takeWhile isPySpace).reverse := by
    have h4 := congrArg List.reverse h2
    rw [List.reverse_reverse, List.reverse_append] at h4
    exact h4
  refine ⟨l.takeWhile isPySpace, (m.reverse.takeWhile isPySpace).reverse, ?_⟩
  conv_lhs => rw [h1, h3]
  simp [pyStrip, hm, List.append_assoc]

theorem dropWhile_head_false (p : Char → Bool) (l : List Char) (c : Char)
    (h : (l.dropWhile p).head? = some c) : p c = false := by
  induction l with
  | nil => simp [List.dropWhile] at h
  | cons d rest ih =>
    by_cases hd : p d
    · exact ih (by simpa [List.dropWhile, hd] using h)
    · simp only [List.dropWhile, hd, Bool.false_eq_true, if_false, List.head?_cons,
        Option.some.injEq] at h
      simp [← h]
      exact Bool.eq_false_iff.mpr hd

theorem dropWhile_getLast? (p : Char → Bool) (l : List Char)
    (h : l.dropWhile p ≠ []) : (l.dropWhile p).getLast? = l.getLast? := by
  induction l with
  | nil => simp [List.dropWhile] at h
  | cons d rest ih =>
    by_cases hd : p d
    · have hres : (d :: rest).dropWhile p = rest.dropWhile p := by
        simp [List.dropWhile, hd]
      rw [hres] at h ⊢
      have hrest : rest ≠ [] := by
        intro hr
        rw [hr] at h
        simp [List.dropWhile] at h
      rcases List.exists_cons_of_ne_nil hrest with ⟨r, rs, rfl⟩
      rw [ih h, List.getLast?_cons_cons]
    · simp [List.dropWhile, hd]

theorem strippedOk_pyStrip (l : List Char) : strippedOk (pyStrip l) = true := by
  by_cases hz : pyStrip l = []
  · simp [hz, strippedOk]
  · set m := l.dropWhile isPySpace with hm
    set m2 := m.reverse.dropWhile isPySpace with hm2
    have hps : pyStrip l = m2.reverse := rfl
    have hm2ne : m2 ≠ [] := by
      intro h0
      exact hz (by simp [hps, h0])
    have hlast : (pyStrip l).getLast? = m2.head? := by
      rw [hps, List.getLast?_reverse]
    have hhead : (pyStrip l).head? = m.head? := by
      rw [hps, List.head?_reverse, hm2, dropWhile_getLast? _ _ hm2ne,
        List.getLast?_reverse]
    have hmne : m ≠ [] := by
      intro h0
      apply hm2ne
      rw [hm2, h0]
      simp [List.dropWhile]
    rcases List.exists_cons_of_ne_nil hmne with ⟨c, cs, hc⟩
    rcases List.exists_cons_of_ne_nil hm2ne with ⟨d, ds, hd⟩
    have hcp : isPySpace c = false := by
      apply dropWhile_head_false isPySpace l
      rw [← hm, hc]
      rfl
    have hdp : isPySpace d = false := by
      apply dropWhile_head_false isPySpace m.reverse
      rw [← hm2, hd]
      rfl
    rw [strippedOk, hhead, hlast, hc, hd]
    simp [hcp, hdp]

theorem hasDoubleSpace_pyStrip (l : List Char)
    (h : hasDoubleSpace l = false) : hasDoubleSpace (pyStrip l) = false := by
  rcases pyStrip_decomp l with ⟨A, B, hAB⟩
  rw [hAB] at h
  exact hasDoubleSpace_append_right _ _ (hasDoubleSpace_append_left A _ (by
    simpa [List.append_assoc] using h))

theorem hasTripleNL_pyStrip (l : List Char)
    (h : hasTripleNL l = false) : hasTripleNL (pyStrip l) = false := by
  rcases pyStrip_decomp l with ⟨A, B, hAB⟩
  rw [hAB] at h
  exact hasTripleNL_append_right _ _ (hasTripleNL_append_left A _ (by
    simpa [List.append_assoc] using h))

theorem hasDoubleSpace_nil : hasDoubleSpace [] = false := rfl

theorem hasTripleNL_nil : hasTripleNL [] = false := rfl

/-- C6: the normalizer decodes HTML entities and then normalizes
whitespace, in that order; absent or empty input yields the empty string;
the two spec examples hold; and for every input the output contains no run
of two-or-more spaces, no run of three-or-more newlines, and carries no
leading or trailing whitespace (runs of spaces collapsed to one, runs of
two-or-more newlines collapsed to exactly two, ends stripped).  The
decode-failure fallback of the source is unreachable here because the
modelled `html.unescape` is total — decoding never raises. -/
theorem C6_normalizer_contract :
    clean_text none = [] ∧
    clean_text (some []) = [] ∧
    clean_text (some "I&#39;m confused".data) = "I'm confused".data ∧
    clean_text (some "Smith &amp; Jones".data) = "Smith & Jones".data ∧
    (∀ t, clean_text (some t) =
      clean_extra_whitespace (some (clean_html_entities (some t)))) ∧
    (∀ t, hasDoubleSpace (clean_text (some t)) = false) ∧
    (∀ t, hasTripleNL (clean_text (some t)) = false) ∧
    (∀ t, strippedOk (clean_text (some t)) = true) := by
  refine ⟨rfl, rfl, by decide, by decide, ?_, ?_, ?_, ?_⟩
  · intro t
    by_cases ht : t = [] <;>
      simp [clean_text, clean_html_entities, clean_extra_whitespace, ht]
  · intro t
    by_cases ht : t = []
    · simp [clean_text, ht, hasDoubleSpace_nil]
    · simp only [clean_text, if_neg ht, clean_extra_whitespace]
      by_cases hu : clean_html_entities (some t) = []
      · simp [hu, hasDoubleSpace_nil]
      · simp only [if_neg hu]
        exact hasDoubleSpace_pyStrip _
          (hasDoubleSpace_collapseNewlines _ (hasDoubleSpace_collapseSpaces _))
  · intro t
    by_cases ht : t = []
    · simp [clean_text, ht, hasTripleNL_nil]
    · simp only [clean_text, if_neg ht, clean_extra_whitespace]
      by_cases hu : clean_html_entities (some t) = []
      · simp [hu, hasTripleNL_nil]
      · simp only [if_neg hu]
        exact hasTripleNL_pyStrip _ (hasTripleNL_collapseNewlines _)
  · intro t
    by_cases ht : t = []
    · simp [clean_text, ht, strippedOk]
    · simp only [clean_text, if_neg ht, clean_extra_whitespace]
      by_cases hu : clean_html_entities (some t) = []
      · simp [hu, strippedOk]
      · simp only [if_neg hu]
        exact strippedOk_pyStrip _

/-! ### C9: idempotence of the normalizer on entity-encoded punctuation -/

theorem unescapeFuel_congr (f1 : Nat) : ∀ (f2 : Nat) (l : List Char),
    l.length ≤ f1 → l.length ≤ f2 → unescapeFuel f1 l = unescapeFuel f2 l := by
  induction f1 with
  | zero =>
    intro f2 l h1 _
    have hl : l = [] := List.eq_nil_of_length_eq_zero (Nat.le_zero.mp h1)
    subst hl
    cases f2 <;> rfl
  | succ f1' ih =>
    intro f2 l h1 h2
    cases l with
    | nil => cases f2 <;> rfl
    | cons c rest =>
      cases f2 with
      | zero => simp at h2
      | succ f2' =>
        have hr1 : rest.length ≤ f1' := Nat.le_of_succ_le_succ (by simp at h1 ⊢; omega)
        have hr2 : rest.length ≤ f2' := Nat.le_of_succ_le_succ (by simp at h2 ⊢; omega)
        by_cases hc : c = '&'
        · subst hc
          cases hp : parseCharref rest with
          | none => simp [unescapeFuel, hp, ih f2' rest hr1 hr2]
          | some dn =>
            obtain ⟨d, n⟩ := dn
            have hdl : (rest.drop n).length ≤ rest.length := by
              rw [List.length_drop]
              omega
            have hd1 : (rest.drop n).length ≤ f1' := le_trans hdl hr1
            have hd2 : (rest.drop n).length ≤ f2' := le_trans hdl hr2
            simp [unescapeFuel, hp, ih f2' (rest.drop n) hd1 hd2]
        · simp [unescapeFuel, hc, ih f2' rest hr1 hr2]

theorem takeWhile_all_head (p : Char → Bool) (xs : List Char) (y : Char)
    (rest : List Char) (hall : ∀ c ∈ xs, p c = true) (hy : p y = false) :
    (xs ++ y :: rest).takeWhile p = xs := by
  induction xs with
  | nil => simp [List.takeWhile_cons, hy]
  | cons a as ih =>
    have ha : p a = true := hall a (List.mem_cons_self a as)
    simp [List.takeWhile_cons, ha,
      ih (fun c hc => hall c (List.mem_cons_of_mem a hc))]

theorem take_takeWhile_eq_take (p : Char → Bool) (l : List Char) :
    ∀ n, n ≤ (l.takeWhile p).length → (l.takeWhile p).take n = l.take n := by
  induction l with
  | nil => intro n _; simp [List.takeWhile]
  | cons c rest ih =>
    intro n hn
    cases n with
    | zero => simp
    | succ m =>
      by_cases hc : p c
      · rw [List.takeWhile_cons, if_pos hc] at hn ⊢
        simp only [List.take_succ_cons, List.cons.injEq, true_and]
        exact ih m (Nat.le_of_succ_le_succ (by simpa using hn))
      · rw [List.takeWhile_cons, if_neg hc] at hn
        simp at hn

theorem take_self_length (l : List Char) (k : Nat) :
    l.take k = l.take ((l.take k).length) := by
  rw [List.length_take]
  rcases Nat.le_total k l.length with h | h
  · rw [Nat.min_eq_left h]
  · rw [Nat.min_eq_right h, List.take_of_length_le h, List.take_length]

theorem lookup_none_of_head_ne (cand : List Char)
    (hs : ∀ k ∈ namedTable.map Prod.fst, k.head? ≠ cand.head?) :
    List.lookup cand namedTable = none := by
  have hgen : ∀ (es : List (List Char × List Char)),
      (∀ k ∈ es.map Prod.fst, k.head? ≠ cand.head?) →
      List.lookup cand es = none := by
    intro es
    induction es with
    | nil => intro _; rfl
    | cons e es' ih =>
      intro h
      obtain ⟨k, v⟩ := e
      have hk : k.head? ≠ cand.head? := h k (by simp)
      have hne : (cand == k) = false :=
        beq_eq_false_iff_ne.mpr fun hck => hk (congrArg List.head? hck).symm
      simp only [List.lookup, hne]
      exact ih fun k' hk' => h k' (by simp at hk' ⊢; exact Or.inr hk')
  exact hgen namedTable hs

theorem findNamedAux_none_of_head (s : List Char) (d : Char)
    (hd : s.head? = some d)
    (ha : d ≠ 'a') (hl : d ≠ 'l') (hg : d ≠ 'g') (hq : d ≠ 'q') :
    ∀ k, findNamedAux s k = none := by
  intro k
  induction k using Nat.strong_induction_on with
  | _ k ih =>
    match k with
    | 0 => rfl
    | 1 => rfl
    | m + 2 =>
      have hcand : (s.take (m + 2)).head? = some d := by
        cases s with
        | nil => simp at hd
        | cons c cs => simpa [List.take_succ_cons] using hd
      have hlook : List.lookup (s.take (m + 2)) namedTable = none := by
        apply lookup_none_of_head_ne
        intro kk hkk
        rw [hcand]
        simp only [namedTable, List.map_cons, List.map_nil, List.mem_cons,
          List.not_mem_nil, or_false] at hkk
        rcases hkk with rfl | rfl | rfl | rfl | rfl | rfl | rfl | rfl | rfl <;>
          intro hcontra <;>
          first
            | exact ha (Option.some.inj hcontra).symm
            | exact hl (Option.some.inj hcontra).symm
            | exact hg (Option.some.inj hcontra).symm
            | exact hq (Option.some.inj hcontra).symm
      simp only [findNamedAux, hlook]
      exact ih (m + 1) (by omega)

theorem punct_cases (c : Char) (h : c ∈ punctChars) :
    c = '&' ∨ c = '\'' ∨ c = '<' ∨ c = '>' ∨ c = '"' := by
  simpa [punctChars] using h

theorem parseNamed_punct_run (d : Char) (r2 : List Char)
    (hd : namedChar d = true)
    (hda : d ≠ 'a') (hdl : d ≠ 'l') (hdg : d ≠ 'g') (hdq : d ≠ 'q')
    (hP : ∀ c ∈ (d :: r2), c ∈ punctChars) :
    ∃ n, parseNamed (d :: r2) = some ('&' :: (d :: r2).take n, n) ∧
      n ≤ (d :: r2).length := by
  have htw : (d :: r2).takeWhile namedChar = d :: r2.takeWhile namedChar := by
    rw [List.takeWhile_cons, if_pos hd]
  have h32 : ((d :: r2).takeWhile namedChar).take 32 =
      d :: (r2.takeWhile namedChar).take 31 := by
    rw [htw, show (32 : Nat) = 31 + 1 from rfl, List.take_succ_cons]
  have hrun_ne : ((d :: r2).takeWhile namedChar).take 32 ≠ [] := by
    rw [h32]
    exact List.cons_ne_nil _ _
  have hrun_len_tw : (((d :: r2).takeWhile namedChar).take 32).length ≤
      ((d :: r2).takeWhile namedChar).length := by
    rw [List.length_take]
    omega
  have hrun_take : ((d :: r2).takeWhile namedChar).take 32 =
      (d :: r2).take ((((d :: r2).takeWhile namedChar).take 32).length) := by
    conv_lhs => rw [take_self_length ((d :: r2).takeWhile namedChar) 32]
    exact take_takeWhile_eq_take namedChar (d :: r2) _ hrun_len_tw
  have hafter : ((d :: r2).drop ((((d :: r2).takeWhile namedChar).take 32).length)).head? ≠
      some ';' := by
    intro hsemi
    have hmem : ';' ∈ (d :: r2).drop ((((d :: r2).takeWhile namedChar).take 32).length) :=
      List.mem_of_mem_head? hsemi
    have : (';' : Char) ∈ (d :: r2) := List.drop_subset _ _ hmem
    have := hP ';' this
    simp [punctChars] at this
  have hfind : findNamed (((d :: r2).takeWhile namedChar).take 32) = none := by
    rw [findNamed]
    exact findNamedAux_none_of_head _ d (by rw [h32]; rfl) hda hdl hdg hdq _
  refine ⟨(((d :: r2).takeWhile namedChar).take 32).length, ?_, ?_⟩
  · rw [parseNamed]
    simp only [if_neg hrun_ne, if_neg hafter, hfind]
    rw [← hrun_take]
  · calc (((d :: r2).takeWhile namedChar).take 32).length
        ≤ ((d :: r2).takeWhile namedChar).length := hrun_len_tw
      _ ≤ (d :: r2).length := (List.takeWhile_sublist namedChar).length_le

theorem parseCharref_punct (rest : List Char)
    (hP : ∀ c ∈ rest, c ∈ punctChars) :
    parseCharref rest = none ∨
    ∃ n, parseCharref rest = some ('&' :: rest.take n, n) ∧ n ≤ rest.length := by
  cases rest with
  | nil => exact Or.inl rfl
  | cons d r2 =>
    have hd : d ∈ punctChars := hP d (by simp)
    rcases punct_cases d hd with rfl | rfl | rfl | rfl | rfl
    · refine Or.inl ?_
      rw [parseCharref, if_neg (by decide), parseNamed]
      simp [List.takeWhile_cons, namedChar]
    · refine Or.inr ?_
      rcases parseNamed_punct_run '\'' r2 (by decide) (by decide) (by decide)
        (by decide) (by decide) hP with ⟨n, hpn, hle⟩
      exact ⟨n, by rw [parseCharref, if_neg (by decide)]; exact hpn, hle⟩
    · refine Or.inl ?_
      rw [parseCharref, if_neg (by decide), parseNamed]
      simp [List.takeWhile_cons, namedChar]
    · refine Or.inr ?_
      rcases parseNamed_punct_run '>' r2 (by decide) (by decide) (by decide)
        (by decide) (by decide) hP with ⟨n, hpn, hle⟩
      exact ⟨n, by rw [parseCharref, if_neg (by decide)]; exact hpn, hle⟩
    · refine Or.inr ?_
      rcases parseNamed_punct_run '"' r2 (by decide) (by decide) (by decide)
        (by decide) (by decide) hP with ⟨n, hpn, hle⟩
      exact ⟨n, by rw [parseCharref, if_neg (by decide)]; exact hpn, hle⟩

theorem unescapeFuel_fixed : ∀ (fuel : Nat) (l : List Char),
    l.length ≤ fuel → (∀ c ∈ l, c ∈ punctChars) → unescapeFuel fuel l = l := by
  intro fuel
  induction fuel with
  | zero => intro l _ _; rfl
  | succ f ih =>
    intro l h1 hP
    cases l with
    | nil => rfl
    | cons c rest =>
      have hrestP : ∀ x ∈ rest, x ∈ punctChars :=
        fun x hx => hP x (List.mem_cons_of_mem c hx)
      have hlen : rest.length ≤ f := by
        simp only [List.length_cons] at h1
        omega
      by_cases hc : c = '&'
      · subst hc
        rcases parseCharref_punct rest hrestP with hnone | ⟨n, hsome, _⟩
        · simp [unescapeFuel, hnone, ih rest hlen hrestP]
        · have hdropP : ∀ x ∈ rest.drop n, x ∈ punctChars :=
            fun x hx => hrestP x (List.drop_subset n rest hx)
          have hdl : (rest.drop n).length ≤ f :=
            le_trans (by rw [List.length_drop]; omega) hlen
          simp [unescapeFuel, hsome, ih (rest.drop n) hdl hdropP,
            List.take_append_drop]
      · simp [unescapeFuel, hc, ih rest hlen hrestP]

theorem parseCharref_named_concrete (nm v : List Char) (rest : List Char)
    (hall : ∀ c ∈ nm, namedChar c = true) (hne : nm ≠ []) (h32 : nm.length ≤ 32)
    (hfind : findNamed (nm ++ [';']) = some (v, [])) :
    parseCharref (nm ++ ';' :: rest) = some (v, nm.length + 1) := by
  rcases List.exists_cons_of_ne_nil hne with ⟨c0, nm', rfl⟩
  have hc0 : namedChar c0 = true := hall c0 (by simp)
  have hc0h : c0 ≠ '#' := by
    intro h
    rw [h] at hc0
    exact absurd hc0 (by decide)
  have htw : ((c0 :: nm') ++ ';' :: rest).takeWhile namedChar = c0 :: nm' :=
    takeWhile_all_head namedChar (c0 :: nm') ';' rest hall (by decide)
  have hrun : (((c0 :: nm') ++ ';' :: rest).takeWhile namedChar).take 32 = c0 :: nm' := by
    rw [htw]
    exact List.take_of_length_le h32
  have hafter : ((c0 :: nm') ++ ';' :: rest).drop (c0 :: nm').length = ';' :: rest :=
    List.drop_left _ _
  rw [List.cons_append] at hfind
  rw [List.cons_append, parseCharref, if_neg hc0h, ← List.cons_append, parseNamed]
  simp only [hrun, hafter]
  rw [if_neg (List.cons_ne_nil c0 nm')]
  simp [hfind]

theorem unescape_step (tail : List Char) (d : List Char) (n : Nat)
    (hp : parseCharref tail = some (d, n)) :
    htmlUnescape ('&' :: tail) = d ++ htmlUnescape (tail.drop n) := by
  have hcong : unescapeFuel tail.length (tail.drop n) =
      unescapeFuel (tail.drop n).length (tail.drop n) :=
    unescapeFuel_congr tail.length (tail.drop n).length (tail.drop n)
      (by rw [List.length_drop]; omega) le_rfl
  rw [htmlUnescape, List.length_cons]
  simp [unescapeFuel, hp, hcong, htmlUnescape]

theorem parseCharref_dec39 (rest : List Char) :
    parseCharref ('#' :: '3' :: '9' :: ';' :: rest) = some (['\''], 4) := by
  have hds : List.takeWhile isDecDigit ('3' :: '9' :: ';' :: rest) = ['3', '9'] :=
    takeWhile_all_head isDecDigit ['3', '9'] ';' rest (by decide) (by decide)
  have hdrop : ('3' :: '9' :: ';' :: rest).drop (['3', '9'] : List Char).length =
      ';' :: rest := rfl
  rw [parseCharref, if_pos rfl, parseNumeric, if_neg (by decide)]
  simp only [hds, hdrop]
  rw [if_neg (by decide)]
  simp only [List.head?_cons, if_pos rfl]
  rfl

theorem unescape_entity_step (e : List Char) (he : e ∈ punctEntities)
    (rest : List Char) :
    ∃ d, htmlUnescape (e ++ rest) = d ++ htmlUnescape rest ∧
      ∀ c ∈ d, c ∈ punctChars := by
  simp only [punctEntities, List.mem_cons, List.not_mem_nil, or_false] at he
  rcases he with rfl | rfl | rfl | rfl | rfl
  · refine ⟨['&'], ?_, by decide⟩
    have hp : parseCharref ("amp".data ++ ';' :: rest) = some ("&".data, 4) :=
      parseCharref_named_concrete "amp".data "&".data rest (by decide) (by decide)
        (by decide) (by decide)
    exact unescape_step ("amp".data ++ ';' :: rest) "&".data 4 hp
  · refine ⟨['\''], ?_, by decide⟩
    exact unescape_step ('#' :: '3' :: '9' :: ';' :: rest) ['\''] 4
      (parseCharref_dec39 rest)
  · refine ⟨['<'], ?_, by decide⟩
    have hp : parseCharref ("lt".data ++ ';' :: rest) = some ("<".data, 3) :=
      parseCharref_named_concrete "lt".data "<".data rest (by decide) (by decide)
        (by decide) (by decide)
    exact unescape_step ("lt".data ++ ';' :: rest) "<".data 3 hp
  · refine ⟨['>'], ?_, by decide⟩
    have hp : parseCharref ("gt".data ++ ';' :: rest) = some (">".data, 3) :=
      parseCharref_named_concrete "gt".data ">".data rest (by decide) (by decide)
        (by decide) (by decide)
    exact unescape_step ("gt".data ++ ';' :: rest) ">".data 3 hp
  · refine ⟨['"'], ?_, by decide⟩
    have hp : parseCharref ("quot".data ++ ';' :: rest) = some ("\"".data, 5) :=
      parseCharref_named_concrete "quot".data "\"".data rest (by decide) (by decide)
        (by decide) (by decide)
    exact unescape_step ("quot".data ++ ';' :: rest) "\"".data 5 hp

theorem onlyEntities_unescape_punct (t : List Char) (h : OnlyEntities t) :
    ∀ c ∈ htmlUnescape t, c ∈ punctChars := by
  induction h with
  | nil => intro c hc; simp [htmlUnescape, unescapeFuel] at hc
  | cons e rest he _ ih =>
    rcases unescape_entity_step e he rest with ⟨d, hstep, hd⟩
    intro c hc
    rw [hstep] at hc
    rcases List.mem_append.mp hc with h1 | h1
    · exact hd c h1
    · exact ih c h1

theorem collapseSpaces_of_no_space (l : List Char) (h : ∀ c ∈ l, c ≠ ' ') :
    collapseSpaces l = l := by
  induction l with
  | nil => rfl
  | cons c rest ih =>
    cases rest with
    | nil => rfl
    | cons d rest' =>
      have hc : c ≠ ' ' := h c (by simp)
      have hb : (decide (c = ' ') && decide (d = ' ')) = false := by simp [hc]
      simp only [collapseSpaces, hb, Bool.false_eq_true, if_false]
      rw [ih (fun x hx => h x (List.mem_cons_of_mem c hx))]

theorem collapseNewlines_of_no_newline (l : List Char) (h : ∀ c ∈ l, c ≠ '\n') :
    collapseNewlines l = l := by
  induction l with
  | nil => rfl
  | cons c rest ih =>
    cases rest with
    | nil => rfl
    | cons d rest' =>
      cases rest' with
      | nil => rfl
      | cons e rest'' =>
        have hc : c ≠ '\n' := h c (by simp)
        have hb : (decide (c = '\n') && decide (d = '\n') && decide (e = '\n')) = false := by
          simp [hc]
        simp only [collapseNewlines, hb, Bool.false_eq_true, if_false]
        rw [ih (fun x hx => h x (List.mem_cons_of_mem c hx))]

theorem dropWhile_of_head_false (p : Char → Bool) (l : List Char)
    (h : ∀ c ∈ l, p c = false) : l.dropWhile p = l := by
  cases l with
  | nil => rfl
  | cons c rest => simp [List.dropWhile, h c (by simp)]

theorem pyStrip_of_no_space (l : List Char)
    (h : ∀ c ∈ l, isPySpace c = false) : pyStrip l = l := by
  rw [pyStrip, dropWhile_of_head_false _ _ h,
    dropWhile_of_head_false _ _ (fun c hc => h c (List.mem_reverse.mp hc)),
    List.reverse_reverse]

theorem punct_not_pyspace (c : Char) (h : c ∈ punctChars) :
    isPySpace c = false := by
  rcases punct_cases c h with rfl | rfl | rfl | rfl | rfl <;> decide

/-- C9: on texts consisting solely of entity-encoded punctuation, the
normalizer is idempotent: a second `clean_text` pass leaves its own output
unchanged (the decoded punctuation contains no whitespace and re-decodes to
itself). -/
theorem C9_normalize_idempotent_on_entities (t : List Char)
    (h : OnlyEntities t) :
    clean_text (some (clean_text (some t))) = clean_text (some t) := by
  by_cases ht : t = []
  · subst ht
    rfl
  · have hP : ∀ c ∈ htmlUnescape t, c ∈ punctChars := onlyEntities_unescape_punct t h
    by_cases hu : htmlUnescape t = []
    · have h1 : clean_text (some t) = [] := by
        simp [clean_text, clean_html_entities, if_neg ht, clean_extra_whitespace, hu]
      rw [h1]
      rfl
    · have hsp : ∀ c ∈ htmlUnescape t, c ≠ ' ' := by
        intro c hc he
        have := punct_not_pyspace c (hP c hc)
        rw [he] at this
        exact absurd this (by decide)
      have hnl : ∀ c ∈ htmlUnescape t, c ≠ '\n' := by
        intro c hc he
        have := punct_not_pyspace c (hP c hc)
        rw [he] at this
        exact absurd this (by decide)
      have hids : pyStrip (collapseNewlines (collapseSpaces (htmlUnescape t))) =
          htmlUnescape t := by
        rw [collapseSpaces_of_no_space _ hsp, collapseNewlines_of_no_newline _ hnl,
          pyStrip_of_no_space _ (fun c hc => punct_not_pyspace c (hP c hc))]
      have h1 : clean_text (some t) = htmlUnescape t := by
        simp only [clean_text, if_neg ht, clean_html_entities, if_neg ht,
          clean_extra_whitespace, if_neg hu]
        exact hids
      have h2 : clean_text (some (htmlUnescape t)) = htmlUnescape t := by
        have hfix : htmlUnescape (htmlUnescape t) = htmlUnescape t :=
          unescapeFuel_fixed (htmlUnescape t).length (htmlUnescape t) le_rfl hP
        simp only [clean_text, if_neg hu, clean_html_entities, if_neg hu,
          clean_extra_whitespace, hfix, if_neg hu]
        exact hids
      rw [h1, h2]

/-- C9 witness: idempotence on the concrete text `"&#39;&amp;"`. -/
theorem C9_normalize_idempotent_witness :
    clean_text (some (clean_text (some "&#39;&amp;".data))) =
      clean_text (some "&#39;&amp;".data) := by
  refine C9_normalize_idempotent_on_entities "&#39;&amp;".data ?_
  have hsplit : "&#39;&amp;".data = "&#39;".data ++ ("&amp;".data ++ []) := by decide
  rw [hsplit]
  exact OnlyEntities.cons _ _ (by simp [punctEntities])
    (OnlyEntities.cons _ _ (by simp [punctEntities]) OnlyEntities.nil)

end PiazzaSummarizer
